import Mathlib

/-!
Verification of the goDirHasher repository (a concurrent SHA-256 file hasher
and checksum verifier written in Go) against its natural-language
specification.

The development shallowly embeds the relevant source code:

* `pkg/hasher/hasher.go` — the manifest parser `ParseHashFile` and the
  `FileEntry` record.
* `cmd/goDirHasher/main.go` — worker-count clamping, manifest-source
  selection, check-mode path resolution, per-entry hash checking, the
  aggregation/summary/exit logic of check mode, and the output/exit logic
  of calculate mode.
* The semaphore-bounded worker pattern of `main.go` is embedded as a
  small-step transition system.

Go strings are modelled as `List Char`; machine `int` as `Int`.  File
hashing (`GetSHA256`) performs I/O, so the filesystem is modelled as a
function from a path to `Option (List Char)`: `some d` means the file
could be opened and streamed and its digest is `d` (as formatted by the
`%X` verb, i.e. uppercase hex), `none` means opening or reading failed.
-/

namespace GoDirHasher

/-- Whitespace predicate used by Go's `strings.TrimSpace` (ASCII part of
`unicode.IsSpace`): space, tab, newline, vertical tab, form feed,
carriage return. -/
def isSpace (c : Char) : Bool :=
  c = ' ' || c = '\t' || c = '\n' || c = '\x0b' || c = '\x0c' || c = '\r'

/-- Model of Go `strings.TrimSpace`: drop whitespace from both ends. -/
def trimSpace (l : List Char) : List Char :=
  (l.rdropWhile isSpace).dropWhile isSpace

/-- Model of Go `strings.SplitN(line, "  ", 2)`: split at the first
occurrence of two consecutive spaces.  `none` models the one-element
result (no separator present). -/
def splitTwoSpace : List Char → Option (List Char × List Char)
  | [] => none
  | c :: rest =>
    if c = ' ' ∧ rest.head? = some ' ' then some ([], rest.tail)
    else (splitTwoSpace rest).map fun p => (c :: p.1, p.2)

/-- Whether the string contains two consecutive spaces. -/
def hasTwoSpace : List Char → Bool
  | [] => false
  | c :: rest => (c = ' ' && rest.head? == some ' ') || hasTwoSpace rest

/-- `FileEntry` from `pkg/hasher/hasher.go`: one manifest line, a hash
and a file path. -/
structure FileEntry where
  Hash : List Char
  FilePath : List Char
deriving DecidableEq, Repr

/-- Loop body of `ParseHashFile` (`pkg/hasher/hasher.go`): trim the
line; skip it when empty or a `#` comment; split at the first two-space
separator (skip when absent); store the hash uppercased and trimmed and
the path trimmed. -/
def parseLine (line : List Char) : Option FileEntry :=
  let l := trimSpace line
  if l.length = 0 then none
  else if l.head? = some '#' then none
  else (splitTwoSpace l).map fun hp => ⟨(trimSpace hp.1).map Char.toUpper, trimSpace hp.2⟩

/-- The scan loop of `ParseHashFile`: process each line in order,
appending an entry per non-skipped line. -/
def parseLines : List (List Char) → List FileEntry
  | [] => []
  | l :: rest =>
    match parseLine l with
    | none => parseLines rest
    | some e => e :: parseLines rest

/-- The manifest input stream as seen through `bufio.Scanner`: the lines
it yielded, and whether the underlying reader failed (`scanner.Err()`).
-/
structure ManifestStream where
  lines : List (List Char)
  readErr : Bool

/-- `ParseHashFile` (`pkg/hasher/hasher.go`): returns the parsed entries,
or an error exactly when the underlying stream read failed.  The error
payload (a wrapped message) is modelled as `Unit`. -/
def ParseHashFile (s : ManifestStream) : Except Unit (List FileEntry) :=
  if s.readErr then Except.error () else Except.ok (parseLines s.lines)

/-! ### Lexical path operations (Go `path/filepath`, Unix rules)

`main.go`'s check mode resolves each entry path with `filepath.Dir`,
`filepath.IsAbs`, `filepath.Join` and `filepath.Clean`.  These are purely
lexical; they are embedded below for slash-separated paths. -/

/-- Split a path into segments at every `/`. -/
def splitSlash : List Char → List (List Char)
  | [] => [[]]
  | c :: rest =>
    match splitSlash rest with
    | [] => [[c]]
    | seg :: segs => if c = '/' then [] :: seg :: segs else (c :: seg) :: segs

/-- Join segments with `/`. -/
def joinSlash : List (List Char) → List Char
  | [] => []
  | [seg] => seg
  | seg :: segs => seg ++ '/' :: joinSlash segs

/-- The element loop of Go `path.Clean`: drop empty and `.` segments,
resolve `..` against the output stack (kept reversed), keep a leading
run of `..` for non-rooted paths. -/
def cleanLoop (rooted : Bool) : List (List Char) → List (List Char) → List (List Char)
  | stack, [] => stack.reverse
  | stack, seg :: rest =>
    if seg = [] ∨ seg = ['.'] then cleanLoop rooted stack rest
    else if seg = ['.', '.'] then
      match stack with
      | top :: stack' =>
        if top = ['.', '.'] then cleanLoop rooted (seg :: top :: stack') rest
        else cleanLoop rooted stack' rest
      | [] => if rooted then cleanLoop rooted [] rest else cleanLoop rooted [seg] rest
    else cleanLoop rooted (seg :: stack) rest

/-- Go `filepath.Clean` on Unix. -/
def clean (p : List Char) : List Char :=
  if p = [] then ['.']
  else
    let rooted := p.head? = some '/'
    let out := joinSlash (cleanLoop rooted [] (splitSlash p))
    let out := if rooted then '/' :: out else out
    if out = [] then ['.'] else out

/-- Go `filepath.IsAbs` on Unix. -/
def isAbs (p : List Char) : Bool := p.head? == some '/'

/-- Go `filepath.Join` for two elements: empty elements are skipped, the
rest are joined with `/` and Cleaned; all-empty input yields the empty
string. -/
def join2 (a b : List Char) : List Char :=
  if a = [] then (if b = [] then [] else clean b)
  else clean (a ++ '/' :: b)

/-- Go `filepath.Dir`: everything up to and including the final slash,
Cleaned (`Clean ""` is `"."`). -/
def dir (p : List Char) : List Char :=
  clean (p.rdropWhile fun c => !(c = '/'))

/-! ### Check mode (`cmd/goDirHasher/main.go`) -/

/-- The placeholder `hashFilePath` used by `main.go` when the manifest is
read from standard input. -/
def stdinName : List Char := ['s', 't', 'd', 'i', 'n']

/-- Path resolution in the check-mode goroutine (`main.go`): paths are
relative to the manifest file's directory, to the current directory when
reading from stdin or when the manifest sits in the current directory,
and absolute entry paths get an empty base; the joined path is Cleaned.
-/
def resolveFullPath (hashFilePath entryPath : List Char) : List Char :=
  let basePath := dir hashFilePath
  let basePath :=
    if hashFilePath = stdinName ∨ basePath = ['.'] then ['.']
    else if ¬ (isAbs entryPath = true) then dir hashFilePath
    else []
  clean (join2 basePath entryPath)

/-- The three shapes `CheckResult.Message` can take in `main.go`: empty
on a match, an "Error getting hash" text on a file error, a "FAILED"
text on a digest mismatch. -/
inductive Msg
  | noMsg
  | errGettingHash
  | failed
deriving DecidableEq, Repr

/-- `CheckResult` from `main.go`. -/
structure CheckResult where
  FilePath : List Char
  IsValid : Bool
  Message : Msg
deriving DecidableEq, Repr

/-- Body of the check-mode goroutine in `main.go`: resolve the full
path, hash it, and compare the uppercased computed hash against the
entry's (already uppercased) hash.  A hashing failure is an invalid
result with an error message. -/
def checkOne (fs : List Char → Option (List Char)) (hashFilePath : List Char)
    (entry : FileEntry) : CheckResult :=
  let fullPath := resolveFullPath hashFilePath entry.FilePath
  match fs fullPath with
  | none => ⟨entry.FilePath, false, Msg.errGettingHash⟩
  | some fileHash =>
    if fileHash.map Char.toUpper = entry.Hash then ⟨entry.FilePath, true, Msg.noMsg⟩
    else ⟨entry.FilePath, false, Msg.failed⟩

/-- `numValidHash` after the collection loop of `main.go`. -/
def countValid (rs : List CheckResult) : Nat := rs.countP fun r => r.IsValid

/-- `numInvalidHash` after the collection loop of `main.go`. -/
def countInvalid (rs : List CheckResult) : Nat := rs.countP fun r => !r.IsValid

/-- `hasFailure` after the collection loop of `main.go`. -/
def hasFailure (rs : List CheckResult) : Bool := rs.any fun r => !r.IsValid

/-- Observable events of the tail of check mode: per-result messages,
the warning line, the summary line, and the final exit with a code. -/
inductive CheckEvent
  | printMsg (m : Msg) (path : List Char)
  | printWarning (numInvalid : Nat)
  | printSummary (total numValid numInvalid : Nat)
  | exitProcess (code : Nat)
deriving DecidableEq, Repr

/-- The event sequence of check mode after parsing (`main.go`): every
result's non-empty message is printed while counting valid/invalid, then
the warning (when something was invalid), then the summary over all
entries, and last the exit — code 1 when any result was invalid, else 0.
-/
def checkTrace (fs : List Char → Option (List Char)) (hashFilePath : List Char)
    (entries : List FileEntry) : List CheckEvent :=
  let results := entries.map (checkOne fs hashFilePath)
  (results.filterMap fun r =>
      if r.Message = Msg.noMsg then none else some (CheckEvent.printMsg r.Message r.FilePath))
    ++ (if 0 < countInvalid results then [CheckEvent.printWarning (countInvalid results)] else [])
    ++ [CheckEvent.printSummary entries.length (countValid results) (countInvalid results)]
    ++ [CheckEvent.exitProcess (if hasFailure results then 1 else 0)]

/-! ### Worker-count handling and manifest-source selection (`main.go`) -/

/-- `defaultMaxWorkers` in `main.go`. -/
def defaultMaxWorkers : Int := 15

/-- The sanitization of the `-workers` flag in `main.go`: values below 1
are replaced by the default, values above 50 are capped at 50. -/
def effectiveMaxWorkers (w : Int) : Int :=
  let w := if w < 1 then defaultMaxWorkers else w
  if w > 50 then 50 else w

/-- Where check mode reads the manifest from. -/
inductive ManifestSource
  | stdinStream
  | file (path : List Char)
  | usageError
deriving DecidableEq, Repr

/-- Check-mode manifest-source selection in `main.go`: no positional
argument means standard input; exactly one argument is opened as a file
path; more arguments print usage and exit. -/
def selectManifestSource (args : List (List Char)) : ManifestSource :=
  match args with
  | [] => ManifestSource.stdinStream
  | [p] => ManifestSource.file p
  | _ => ManifestSource.usageError

/-! ### Calculate mode (`cmd/goDirHasher/main.go`) -/

/-- `CalcResult` from `main.go` with the Go `error` modelled as a flag. -/
structure CalcResult where
  FilePath : List Char
  Hash : List Char
  Error : Bool
deriving DecidableEq, Repr

/-- Body of the calculate-mode goroutine in `main.go`: hash the file and
emit the result; on failure the hash is the empty string and the error
is set. -/
def calcOne (fs : List Char → Option (List Char)) (filePath : List Char) : CalcResult :=
  match fs filePath with
  | some h => ⟨filePath, h, false⟩
  | none => ⟨filePath, [], true⟩

/-- The output line format of calculate mode (`fmt.Fprintf` with
`"%s  %s\n"`): hash, two spaces, path.  The newline is implicit in the
line-based model. -/
def serializeLine (digest path : List Char) : List Char :=
  digest ++ ' ' :: ' ' :: path

/-- The collection loop of calculate mode (`main.go`): errored results
are only counted, successful ones are written as manifest lines; the
exit code is 1 when any error was counted and 0 otherwise. -/
def runCalc (fs : List Char → Option (List Char)) (files : List (List Char)) :
    List (List Char) × Nat × Nat :=
  let results := files.map (calcOne fs)
  let outputLines := results.filterMap fun r =>
    if r.Error then none else some (serializeLine r.Hash r.FilePath)
  let errorCount := results.countP fun r => r.Error
  (outputLines, errorCount, if 0 < errorCount then 1 else 0)

/-! ### The semaphore-bounded worker pattern (`cmd/goDirHasher/main.go`)

Both modes launch one goroutine per task; each goroutine acquires a slot
on a channel-based semaphore of capacity `maxWorkers`, performs its
hashing work, sends its result on a buffered channel of capacity `N`
(which therefore never blocks), then releases the slot via `defer`, and
finally signals the `WaitGroup`; the result channel is closed only after
`wg.Wait()` returns, i.e. after every goroutine has finished.  This is
embedded as a small-step transition system over the phases of the `N`
goroutines. -/

/-- Phase of one task goroutine: not yet holding a semaphore slot,
holding a slot and hashing, result sent but slot still held (the `defer`s
have not run), or finished (slot released, `wg.Done()` run). -/
inductive TaskPhase
  | pending
  | hashing
  | sent
  | released
deriving DecidableEq, Repr

/-- Whether a phase holds a semaphore slot. -/
def holdsSlot : TaskPhase → Bool
  | TaskPhase.hashing => true
  | TaskPhase.sent => true
  | _ => false

/-- Whether a phase is performing the file-I/O-bound digest work. -/
def isHashing : TaskPhase → Bool
  | TaskPhase.hashing => true
  | _ => false

/-- Global state of a run with `N` tasks: the phase of every goroutine,
the contents of the buffered result channel (most recent first), and
whether the channel has been closed. -/
structure SchedState (N : Nat) where
  phase : Fin N → TaskPhase
  outcomes : List (Fin N)
  closed : Bool

/-- Number of tasks whose phase satisfies `p`. -/
def cntP {N : Nat} (p : TaskPhase → Bool) (s : SchedState N) : Nat :=
  ∑ i : Fin N, if p (s.phase i) then 1 else 0

/-- Initial state: every goroutine launched but none holding a slot, no
results, channel open. -/
def initState (N : Nat) : SchedState N := ⟨fun _ => TaskPhase.pending, [], false⟩

/-- One step of the worker system with semaphore capacity `W`:
acquiring a slot (blocked while `W` slots are held), sending the result
(the channel has capacity `N`, so sending never blocks), running the
deferred slot release and `wg.Done()`, and closing the channel after
`wg.Wait()` observes every goroutine finished. -/
inductive SchedStep (W : Nat) {N : Nat} : SchedState N → SchedState N → Prop
  | acquire (s : SchedState N) (i : Fin N) :
      s.phase i = TaskPhase.pending →
      cntP holdsSlot s < W →
      SchedStep W s ⟨Function.update s.phase i TaskPhase.hashing, s.outcomes, s.closed⟩
  | emit (s : SchedState N) (i : Fin N) :
      s.phase i = TaskPhase.hashing →
      SchedStep W s ⟨Function.update s.phase i TaskPhase.sent, i :: s.outcomes, s.closed⟩
  | release (s : SchedState N) (i : Fin N) :
      s.phase i = TaskPhase.sent →
      SchedStep W s ⟨Function.update s.phase i TaskPhase.released, s.outcomes, s.closed⟩
  | closeChan (s : SchedState N) :
      (∀ i, s.phase i = TaskPhase.released) →
      s.closed = false →
      SchedStep W s ⟨s.phase, s.outcomes, true⟩

/-- Reachable states of the worker system. -/
inductive SchedReach (W N : Nat) : SchedState N → Prop
  | init : SchedReach W N (initState N)
  | step {s t : SchedState N} : SchedReach W N s → SchedStep W s t → SchedReach W N t

/-! ### Character-level lemmas -/

theorem char_eq_iff_toNat {c d : Char} : c = d ↔ c.toNat = d.toNat :=
  ⟨fun h => by rw [h], fun h => Char.ext (UInt32.ext h)⟩

theorem isSpace_iff {c : Char} :
    isSpace c = true ↔
      (c.toNat = 32 ∨ c.toNat = 9 ∨ c.toNat = 10 ∨ c.toNat = 11 ∨
        c.toNat = 12 ∨ c.toNat = 13) := by
  have h1 : (' ' : Char).toNat = 32 := rfl
  have h2 : ('\t' : Char).toNat = 9 := rfl
  have h3 : ('\n' : Char).toNat = 10 := rfl
  have h4 : ('\x0b' : Char).toNat = 11 := rfl
  have h5 : ('\x0c' : Char).toNat = 12 := rfl
  have h6 : ('\r' : Char).toNat = 13 := rfl
  simp only [isSpace, Bool.or_eq_true, decide_eq_true_eq, char_eq_iff_toNat,
    h1, h2, h3, h4, h5, h6]
  tauto

theorem toNat_ofNat_of_lt {m : Nat} (h : m < 55296) : (Char.ofNat m).toNat = m := by
  rw [Char.ofNat, dif_pos (Or.inl h)]
  rfl

theorem toUpper_cases (c : Char) :
    Char.toUpper c = c ∨
      (97 ≤ c.toNat ∧ c.toNat ≤ 122 ∧ (Char.toUpper c).toNat = c.toNat - 32) := by
  simp only [Char.toUpper]
  split
  case isTrue h => exact Or.inr ⟨h.1, h.2, toNat_ofNat_of_lt (by omega)⟩
  case isFalse h => exact Or.inl rfl

theorem toUpper_eq_self_of_lt {d : Char} (h : d.toNat < 97) : Char.toUpper d = d := by
  simp only [Char.toUpper]
  rw [if_neg (by omega)]

theorem isSpace_toUpper (c : Char) : isSpace (Char.toUpper c) = isSpace c := by
  rcases toUpper_cases c with h | ⟨h1, h2, h3⟩
  · rw [h]
  · have hA : isSpace (Char.toUpper c) = false := by
      rcases Bool.eq_false_or_eq_true (isSpace (Char.toUpper c)) with h | h
      · exfalso; rcases isSpace_iff.mp h with h' | h' | h' | h' | h' | h' <;> omega
      · exact h
    have hB : isSpace c = false := by
      rcases Bool.eq_false_or_eq_true (isSpace c) with h | h
      · exfalso; rcases isSpace_iff.mp h with h' | h' | h' | h' | h' | h' <;> omega
      · exact h
    rw [hA, hB]

theorem toUpper_toUpper (c : Char) : Char.toUpper (Char.toUpper c) = Char.toUpper c := by
  rcases toUpper_cases c with h | ⟨h1, h2, h3⟩
  · rw [h, h]
  · exact toUpper_eq_self_of_lt (by omega)

/-- The characters the `%X` hex formatting verb can produce. -/
def isUpperHexChar (c : Char) : Bool :=
  (48 ≤ c.toNat && c.toNat ≤ 57) || (65 ≤ c.toNat && c.toNat ≤ 70)

theorem isUpperHexChar_props {c : Char} (h : isUpperHexChar c = true) :
    Char.toUpper c = c ∧ isSpace c = false ∧ c ≠ '#' ∧ c ≠ ' ' := by
  have h' : (48 ≤ c.toNat ∧ c.toNat ≤ 57) ∨ (65 ≤ c.toNat ∧ c.toNat ≤ 70) := by
    simpa [isUpperHexChar] using h
  refine ⟨toUpper_eq_self_of_lt (by omega), ?_, ?_, ?_⟩
  · rcases Bool.eq_false_or_eq_true (isSpace c) with hs | hs
    · exfalso; rcases isSpace_iff.mp hs with h' | h' | h' | h' | h' | h' <;> omega
    · exact hs
  · intro hc
    have : c.toNat = 35 := by rw [hc]; rfl
    omega
  · intro hc
    have : c.toNat = 32 := by rw [hc]; rfl
    omega

/-! ### Lemmas about `trimSpace` -/

theorem trimSpace_head {l : List Char} {c : Char} (h : (trimSpace l).head? = some c) :
    isSpace c = false := by
  have hm := List.head?_dropWhile_not isSpace (l.rdropWhile isSpace)
  rw [trimSpace] at h
  rw [h] at hm
  exact hm

theorem trimSpace_getLast {l : List Char} {c : Char}
    (h : (trimSpace l).getLast? = some c) : isSpace c = false := by
  rw [trimSpace] at h
  obtain ⟨t, ht⟩ := List.dropWhile_suffix (l := l.rdropWhile isSpace) isSpace
  have h2 : (l.rdropWhile isSpace).getLast? = some c := by
    rw [← ht, List.getLast?_append, h]; rfl
  have hne : l.rdropWhile isSpace ≠ [] := by
    intro hn; rw [hn] at h2; simp at h2
  have h3 := List.rdropWhile_last_not isSpace l hne
  rw [List.getLast?_eq_getLast _ hne] at h2
  injection h2 with h2
  rw [h2] at h3
  simpa using h3

theorem trimSpace_eq_nil_iff {l : List Char} :
    trimSpace l = [] ↔ ∀ c ∈ l, isSpace c = true := by
  rw [trimSpace]
  constructor
  · intro h
    rw [List.dropWhile_eq_nil_iff] at h
    rcases eq_or_ne (l.rdropWhile isSpace) [] with hn | hn
    · exact fun c hc => List.rdropWhile_eq_nil_iff.mp hn c hc
    · exfalso
      have h3 := List.rdropWhile_last_not isSpace l hn
      exact h3 (h _ (List.getLast_mem hn))
  · intro h
    have hr : l.rdropWhile isSpace = [] := List.rdropWhile_eq_nil_iff.mpr h
    rw [hr]; rfl

theorem trimSpace_eq_self {l : List Char}
    (h1 : ∀ c, l.head? = some c → isSpace c = false)
    (h2 : ∀ c, l.getLast? = some c → isSpace c = false) :
    trimSpace l = l := by
  have hr : l.rdropWhile isSpace = l := by
    rw [List.rdropWhile_eq_self_iff]
    intro hl
    have := h2 _ (List.getLast?_eq_getLast l hl)
    simp [this]
  rw [trimSpace, hr]
  cases l with
  | nil => rfl
  | cons c cs =>
    have := h1 c rfl
    simp [List.dropWhile_cons, this]

theorem trimSpace_idem (l : List Char) : trimSpace (trimSpace l) = trimSpace l :=
  trimSpace_eq_self (fun _ h => trimSpace_head h) (fun _ h => trimSpace_getLast h)

/-! ### Lemmas about `splitTwoSpace` and `parseLine` -/

theorem splitTwoSpace_eq {x a b : List Char} (h : splitTwoSpace x = some (a, b)) :
    x = a ++ ' ' :: ' ' :: b ∧ hasTwoSpace (a ++ [' ']) = false := by
  induction x generalizing a b with
  | nil => simp [splitTwoSpace] at h
  | cons c rest ih =>
    rw [splitTwoSpace] at h
    by_cases hc : c = ' ' ∧ rest.head? = some ' '
    · rw [if_pos hc] at h
      simp only [Option.some.injEq, Prod.mk.injEq] at h
      obtain ⟨ha, hb⟩ := h
      subst ha hb
      obtain ⟨hc1, hc2⟩ := hc
      subst hc1
      cases rest with
      | nil => simp at hc2
      | cons r rs =>
        simp only [List.head?_cons, Option.some.injEq] at hc2
        subst hc2
        exact ⟨rfl, by simp [hasTwoSpace]⟩
    · rw [if_neg hc] at h
      rcases ho : splitTwoSpace rest with _ | ⟨a', b'⟩
      · rw [ho] at h; simp at h
      · rw [ho] at h
        simp only [Option.map_some', Option.some.injEq, Prod.mk.injEq] at h
        obtain ⟨ha, hb⟩ := h
        subst hb
        obtain ⟨ih1, ih2⟩ := ih ho
        subst ha
        refine ⟨by rw [ih1]; rfl, ?_⟩
        show hasTwoSpace (c :: (a' ++ [' '])) = false
        rw [hasTwoSpace, ih2, Bool.or_false]
        cases a' with
        | nil =>
          have hrest : rest.head? = some ' ' := by rw [ih1]; rfl
          have hcne : ¬ c = ' ' := fun hh => hc ⟨hh, hrest⟩
          simp [hcne]
        | cons d ds =>
          by_cases hd : d = ' '
          · have hrest : rest.head? = some ' ' := by rw [ih1, hd]; rfl
            have hcne : ¬ c = ' ' := fun hh => hc ⟨hh, hrest⟩
            simp [hcne]
          · simp [hd]

theorem splitTwoSpace_append (d p : List Char) (hd : ∀ c ∈ d, c ≠ ' ') :
    splitTwoSpace (d ++ ' ' :: ' ' :: p) = some (d, p) := by
  induction d with
  | nil =>
    show splitTwoSpace (' ' :: ' ' :: p) = some ([], p)
    rw [splitTwoSpace, if_pos ⟨rfl, rfl⟩]
    rfl
  | cons c cs ih =>
    have hcne : ¬(c = ' ' ∧ (cs ++ ' ' :: ' ' :: p).head? = some ' ') :=
      fun hcon => hd c (List.mem_cons_self _ _) hcon.1
    rw [List.cons_append, splitTwoSpace, if_neg hcne,
      ih fun x hx => hd x (List.mem_cons_of_mem _ hx)]
    rfl

theorem parseLines_eq_filterMap (lines : List (List Char)) :
    parseLines lines = lines.filterMap parseLine := by
  induction lines with
  | nil => rfl
  | cons l rest ih =>
    cases h : parseLine l <;> simp [parseLines, List.filterMap_cons, h, ih]

theorem length_filterMap_parseLine (lines : List (List Char)) :
    (lines.filterMap parseLine).length = lines.countP fun l => (parseLine l).isSome := by
  induction lines with
  | nil => rfl
  | cons l rest ih =>
    cases h : parseLine l <;>
      simp [List.filterMap_cons, List.countP_cons, h, ih]

/-- The digest field of a manifest line: what stands before the first
two-space separator of the trimmed line. -/
def digestField (line : List Char) : Option (List Char) :=
  (splitTwoSpace (trimSpace line)).map fun hp => hp.1

theorem parseLine_eq_some {line : List Char} {e : FileEntry} (h : parseLine line = some e) :
    ∃ a b, splitTwoSpace (trimSpace line) = some (a, b) ∧
      trimSpace line = a ++ ' ' :: ' ' :: b ∧
      hasTwoSpace (a ++ [' ']) = false ∧
      e.Hash = (trimSpace a).map Char.toUpper ∧
      e.FilePath = trimSpace b := by
  simp only [parseLine] at h
  split at h
  · simp at h
  · split at h
    · simp at h
    · rw [Option.map_eq_some'] at h
      obtain ⟨⟨a, b⟩, hs, he⟩ := h
      obtain ⟨h1, h2⟩ := splitTwoSpace_eq hs
      exact ⟨a, b, hs, h1, h2, by rw [← he], by rw [← he]⟩

theorem trimmed_path_ne_nil {line a b : List Char}
    (h1 : trimSpace line = a ++ ' ' :: ' ' :: b) : trimSpace b ≠ [] := by
  intro hnil
  have hb : ∀ c ∈ b, isSpace c = true := trimSpace_eq_nil_iff.mp hnil
  cases hbe : b.getLast? with
  | none =>
    have hb0 : b = [] := by
      cases b with
      | nil => rfl
      | cons d ds => simp [List.getLast?_eq_getLast _ (List.cons_ne_nil d ds)] at hbe
    subst hb0
    have hlast : (trimSpace line).getLast? = some ' ' := by
      rw [h1, List.getLast?_append]; rfl
    have := trimSpace_getLast hlast
    simp [isSpace] at this
  | some d =>
    have hdmem : d ∈ b := List.mem_of_getLast?_eq_some hbe
    have hlast : (trimSpace line).getLast? = some d := by
      rw [h1, List.getLast?_append]
      have : (' ' :: ' ' :: b).getLast? = some d := by
        show ([' ', ' '] ++ b).getLast? = some d
        rw [List.getLast?_append, hbe]; rfl
      rw [this]; rfl
    have hfalse := trimSpace_getLast hlast
    rw [hb d hdmem] at hfalse
    cases hfalse

/-- Invariants of every entry produced by the parser: the path is
non-empty and trimmed; the hash is uppercase-normalized and trimmed.
(No fixed-length or hex-alphabet condition holds; see the
counterexample.) -/
theorem parseLine_invariants {line : List Char} {e : FileEntry}
    (h : parseLine line = some e) :
    e.FilePath ≠ [] ∧ trimSpace e.FilePath = e.FilePath ∧
      e.Hash.map Char.toUpper = e.Hash ∧ trimSpace e.Hash = e.Hash := by
  obtain ⟨a, b, _, h1, _, hh, hp⟩ := parseLine_eq_some h
  refine ⟨?_, ?_, ?_, ?_⟩
  · rw [hp]; exact trimmed_path_ne_nil h1
  · rw [hp]; exact trimSpace_idem b
  · rw [hh, List.map_map]
    exact List.map_congr_left fun c _ => toUpper_toUpper c
  · rw [hh]
    apply trimSpace_eq_self
    · intro c hc
      rw [List.head?_map] at hc
      rcases h0 : (trimSpace a).head? with _ | c₀
      · rw [h0] at hc; cases hc
      · rw [h0] at hc
        injection hc with hc
        rw [← hc, isSpace_toUpper]
        exact trimSpace_head h0
    · intro c hc
      rw [List.getLast?_map] at hc
      rcases h0 : (trimSpace a).getLast? with _ | c₀
      · rw [h0] at hc; cases hc
      · rw [h0] at hc
        injection hc with hc
        rw [← hc, isSpace_toUpper]
        exact trimSpace_getLast h0

theorem mem_of_head?_eq_some {α : Type} {l : List α} {c : α} (h : l.head? = some c) :
    c ∈ l := by
  cases l with
  | nil => cases h
  | cons d ds =>
    simp only [List.head?_cons, Option.some.injEq] at h
    rw [← h]
    exact List.mem_cons_self _ _

/-- Parsing a line produced by the calculate-mode serializer recovers
the digest and path exactly, when the digest is non-empty uppercase hex
and the path is non-empty with no surrounding whitespace. -/
theorem parseLine_serializeLine {d p : List Char}
    (hd : d ≠ []) (hdc : ∀ c ∈ d, isUpperHexChar c = true)
    (hp : p ≠ []) (hpt : trimSpace p = p) :
    parseLine (serializeLine d p) = some ⟨d, p⟩ := by
  have hdspace : ∀ c ∈ d, isSpace c = false :=
    fun c hc => (isUpperHexChar_props (hdc c hc)).2.1
  have hdnospace : ∀ c ∈ d, c ≠ ' ' :=
    fun c hc => (isUpperHexChar_props (hdc c hc)).2.2.2
  have htrim : trimSpace (serializeLine d p) = serializeLine d p := by
    apply trimSpace_eq_self
    · intro c hc
      rw [serializeLine, List.head?_append_of_ne_nil _ hd] at hc
      exact hdspace c (mem_of_head?_eq_some hc)
    · intro c hc
      have hple : p.getLast? = some c := by
        cases p with
        | nil => exact absurd rfl hp
        | cons q qs =>
          have heq : (serializeLine d (q :: qs)).getLast? = (q :: qs).getLast? := by
            show (d ++ ' ' :: ' ' :: q :: qs).getLast? = (q :: qs).getLast?
            rw [List.getLast?_append,
              show (' ' :: ' ' :: q :: qs) = [' ', ' '] ++ q :: qs from rfl,
              List.getLast?_append, List.getLast?_eq_getLast _ (List.cons_ne_nil q qs)]
            rfl
          rw [heq] at hc
          exact hc
      apply trimSpace_getLast (l := p)
      rw [hpt]; exact hple
  have hsplit : splitTwoSpace (serializeLine d p) = some (d, p) :=
    splitTwoSpace_append d p hdnospace
  have hdtrim : trimSpace d = d := by
    apply trimSpace_eq_self
    · intro c hc; exact hdspace c (mem_of_head?_eq_some hc)
    · intro c hc; exact hdspace c (List.mem_of_getLast?_eq_some hc)
  have hdupper : d.map Char.toUpper = d := by
    have := List.map_congr_left (f := Char.toUpper) (g := id)
      fun c hc => (isUpperHexChar_props (hdc c hc)).1
    simpa using this
  have hhash : ¬ (serializeLine d p).head? = some '#' := by
    rw [serializeLine, List.head?_append_of_ne_nil _ hd]
    intro hc
    exact (isUpperHexChar_props (hdc _ (mem_of_head?_eq_some hc))).2.2.1 rfl
  have hlen : ¬ (serializeLine d p).length = 0 := by
    rw [serializeLine]
    cases d with
    | nil => exact absurd rfl hd
    | cons c cs => simp
  rw [parseLine]
  simp only [htrim]
  rw [if_neg hlen, if_neg hhash, hsplit]
  simp only [Option.map_some', Option.some.injEq]
  rw [hdtrim, hdupper, hpt]

/-- C2: for every input stream, `ParseHashFile` succeeds with exactly
the entries of the well-formed lines, in input order, skipping blank,
comment and malformed lines; it errors exactly when the underlying
stream read failed. -/
theorem claim_C2_tolerant_parsing :
    (∀ lines : List (List Char),
        ParseHashFile ⟨lines, false⟩ = Except.ok (lines.filterMap parseLine) ∧
        (lines.filterMap parseLine).length =
          lines.countP fun l => (parseLine l).isSome) ∧
    (∀ s : ManifestStream, ParseHashFile s = Except.error () ↔ s.readErr = true) := by
  constructor
  · intro lines
    constructor
    · rw [ParseHashFile]
      simp only [Bool.false_eq_true, if_false]
      rw [parseLines_eq_filterMap]
    · exact length_filterMap_parseLine lines
  · intro s
    rw [ParseHashFile]
    by_cases h : s.readErr = true <;> simp [h]

/-- C3: every parsed line is split at the first two-space occurrence,
with the digest field stored uppercased and trimmed and the path field
trimmed; consequently two manifest lines whose digest fields are case
variants of each other produce entries with the same stored hash, which
the check-mode comparison treats identically. -/
theorem claim_C3_split_and_case_normalization :
    (∀ (line : List Char) (e : FileEntry), parseLine line = some e →
      ∃ a b, trimSpace line = a ++ ' ' :: ' ' :: b ∧
        hasTwoSpace (a ++ [' ']) = false ∧
        e.Hash = (trimSpace a).map Char.toUpper ∧
        e.FilePath = trimSpace b) ∧
    (∀ (l₁ l₂ : List Char) (e₁ e₂ : FileEntry) (a₁ a₂ : List Char)
        (fs : List Char → Option (List Char)) (hashFilePath : List Char),
      parseLine l₁ = some e₁ → parseLine l₂ = some e₂ →
      digestField l₁ = some a₁ → digestField l₂ = some a₂ →
      (trimSpace a₁).map Char.toUpper = (trimSpace a₂).map Char.toUpper →
      e₁.Hash = e₂.Hash ∧
        (e₁.FilePath = e₂.FilePath →
          checkOne fs hashFilePath e₁ = checkOne fs hashFilePath e₂)) := by
  constructor
  · intro line e h
    obtain ⟨a, b, _, h1, h2, hh, hp⟩ := parseLine_eq_some h
    exact ⟨a, b, h1, h2, hh, hp⟩
  · intro l₁ l₂ e₁ e₂ a₁ a₂ fs hashFilePath h₁ h₂ hd₁ hd₂ hcase
    obtain ⟨x₁, y₁, hs₁, _, _, hh₁, _⟩ := parseLine_eq_some h₁
    obtain ⟨x₂, y₂, hs₂, _, _, hh₂, _⟩ := parseLine_eq_some h₂
    rw [digestField, hs₁] at hd₁
    rw [digestField, hs₂] at hd₂
    simp only [Option.map_some', Option.some.injEq] at hd₁ hd₂
    subst hd₁ hd₂
    have hhash : e₁.Hash = e₂.Hash := by rw [hh₁, hh₂, hcase]
    refine ⟨hhash, fun hpath => ?_⟩
    cases e₁ with
    | mk h₁' p₁' =>
      cases e₂ with
      | mk h₂' p₂' =>
        simp only at hhash hpath
        rw [hhash, hpath]

/-- C4: serializing computed (digest, path) outcomes as
`DIGEST␣␣path` lines and re-parsing with `ParseHashFile` recovers the
original pairs, for non-empty uppercase-hex digests and non-blank,
non-comment, whitespace-clean paths. -/
theorem claim_C4_roundtrip (rs : List (List Char × List Char))
    (h : ∀ r ∈ rs, (r.1 ≠ [] ∧ ∀ c ∈ r.1, isUpperHexChar c = true) ∧
        (r.2 ≠ [] ∧ trimSpace r.2 = r.2 ∧ hasTwoSpace r.2 = false ∧
          r.2.head? ≠ some '#')) :
    ParseHashFile ⟨rs.map fun r => serializeLine r.1 r.2, false⟩ =
      Except.ok (rs.map fun r => FileEntry.mk r.1 r.2) := by
  rw [ParseHashFile]
  simp only [Bool.false_eq_true, if_false, Except.ok.injEq]
  induction rs with
  | nil => rfl
  | cons r rest ih =>
    obtain ⟨⟨hd, hdc⟩, ⟨hp, hpt, _, _⟩⟩ := h r (List.mem_cons_self _ _)
    rw [List.map_cons, List.map_cons, parseLines,
      parseLine_serializeLine hd hdc hp hpt,
      ih fun x hx => h x (List.mem_cons_of_mem _ hx)]

/-- C4 witness: a concrete one-outcome round trip. -/
theorem claim_C4_roundtrip_witness :
    (∀ r ∈ [((['A', 'B'], ['f', 'o', 'o']) : List Char × List Char)],
        (r.1 ≠ [] ∧ ∀ c ∈ r.1, isUpperHexChar c = true) ∧
        (r.2 ≠ [] ∧ trimSpace r.2 = r.2 ∧ hasTwoSpace r.2 = false ∧
          r.2.head? ≠ some '#')) ∧
    ParseHashFile
        ⟨[(['A', 'B'], ['f', 'o', 'o'])].map fun r => serializeLine r.1 r.2, false⟩ =
      Except.ok ([(['A', 'B'], ['f', 'o', 'o'])].map fun r => FileEntry.mk r.1 r.2) :=
  ⟨by decide, claim_C4_roundtrip _ (by decide)⟩

/-- C5 counterexample: the line `ab  foo` parses to an entry whose
stored digest `AB` is not 64 characters long, so parsed entries need not
carry a SHA-256-sized hex digest. -/
theorem claim_C5_counterexample :
    parseLines [['a', 'b', ' ', ' ', 'f', 'o', 'o']] =
      [⟨['A', 'B'], ['f', 'o', 'o']⟩] ∧
    ¬ ((⟨['A', 'B'], ['f', 'o', 'o']⟩ : FileEntry).Hash.length = 64) := by
  decide

/-- C5 (amended): every entry produced by parsing has a non-empty,
whitespace-trimmed path, and a digest that is uppercase-normalized and
whitespace-trimmed; the parser does not validate digest length or
alphabet. -/
theorem claim_C5_parsed_entry_invariants :
    ∀ (lines : List (List Char)) (e : FileEntry), e ∈ parseLines lines →
      e.FilePath ≠ [] ∧ trimSpace e.FilePath = e.FilePath ∧
        e.Hash.map Char.toUpper = e.Hash ∧ trimSpace e.Hash = e.Hash := by
  intro lines e he
  rw [parseLines_eq_filterMap, List.mem_filterMap] at he
  obtain ⟨l, _, hl⟩ := he
  exact parseLine_invariants hl

/-- C5 witness: the amended invariants at a concrete parsed entry. -/
theorem claim_C5_parsed_entry_invariants_witness :
    (⟨['A', 'B'], ['f']⟩ : FileEntry) ∈ parseLines [['a', 'b', ' ', ' ', 'f']] ∧
    ((⟨['A', 'B'], ['f']⟩ : FileEntry).FilePath ≠ [] ∧
      trimSpace (⟨['A', 'B'], ['f']⟩ : FileEntry).FilePath =
        (⟨['A', 'B'], ['f']⟩ : FileEntry).FilePath ∧
      (⟨['A', 'B'], ['f']⟩ : FileEntry).Hash.map Char.toUpper =
        (⟨['A', 'B'], ['f']⟩ : FileEntry).Hash ∧
      trimSpace (⟨['A', 'B'], ['f']⟩ : FileEntry).Hash =
        (⟨['A', 'B'], ['f']⟩ : FileEntry).Hash) :=
  ⟨by decide,
    claim_C5_parsed_entry_invariants [['a', 'b', ' ', ' ', 'f']]
      ⟨['A', 'B'], ['f']⟩ (by decide)⟩

/-- C3 witness: the lines `ab  f` and `AB  f` parse to the same entry
and compare identically in check mode. -/
theorem claim_C3_split_and_case_normalization_witness :
    (parseLine ['a', 'b', ' ', ' ', 'f'] = some ⟨['A', 'B'], ['f']⟩ ∧
      parseLine ['A', 'B', ' ', ' ', 'f'] = some ⟨['A', 'B'], ['f']⟩ ∧
      digestField ['a', 'b', ' ', ' ', 'f'] = some ['a', 'b'] ∧
      digestField ['A', 'B', ' ', ' ', 'f'] = some ['A', 'B'] ∧
      (trimSpace ['a', 'b']).map Char.toUpper =
        (trimSpace ['A', 'B']).map Char.toUpper) ∧
    ((⟨['A', 'B'], ['f']⟩ : FileEntry).Hash = (⟨['A', 'B'], ['f']⟩ : FileEntry).Hash ∧
      ((⟨['A', 'B'], ['f']⟩ : FileEntry).FilePath =
          (⟨['A', 'B'], ['f']⟩ : FileEntry).FilePath →
        checkOne (fun _ => none) stdinName ⟨['A', 'B'], ['f']⟩ =
          checkOne (fun _ => none) stdinName ⟨['A', 'B'], ['f']⟩)) :=
  ⟨by decide,
    claim_C3_split_and_case_normalization.2
      ['a', 'b', ' ', ' ', 'f'] ['A', 'B', ' ', ' ', 'f']
      ⟨['A', 'B'], ['f']⟩ ⟨['A', 'B'], ['f']⟩ ['a', 'b'] ['A', 'B']
      (fun _ => none) stdinName (by decide) (by decide) (by decide) (by decide)
      (by decide)⟩

/-! ### Check-mode reconciliation and reporting -/

/-- A check result is valid exactly when the file hashed successfully
and the uppercased computed hash equals the stored hash. -/
theorem checkOne_isValid_iff (fs : List Char → Option (List Char))
    (hashFilePath : List Char) (e : FileEntry) :
    (checkOne fs hashFilePath e).IsValid = true ↔
      ∃ h, fs (resolveFullPath hashFilePath e.FilePath) = some h ∧
        h.map Char.toUpper = e.Hash := by
  rw [checkOne]
  cases hfs : fs (resolveFullPath hashFilePath e.FilePath) with
  | none => simp
  | some h =>
    by_cases hh : h.map Char.toUpper = e.Hash <;> simp [hh]

theorem countValid_add_countInvalid (rs : List CheckResult) :
    countValid rs + countInvalid rs = rs.length := by
  rw [countValid, countInvalid, List.length_eq_countP_add_countP (fun r => r.IsValid) rs]
  congr 1
  apply List.countP_congr
  intro r _
  cases hr : r.IsValid <;> simp [hr]

/-- C1: check-mode reconciliation.  Per entry: an unreadable file is an
error outcome, a computed digest equal to the stored one (up to case) is
a match, a different digest is a mismatch.  The valid and invalid counts
cover every entry, the trace ends with the full summary followed by the
exit event, and the exit code is zero exactly when every entry matched.
-/
theorem claim_C1_check_reconciliation (fs : List Char → Option (List Char))
    (hashFilePath : List Char) (entries : List FileEntry) :
    (∀ entry : FileEntry,
        fs (resolveFullPath hashFilePath entry.FilePath) = none →
        checkOne fs hashFilePath entry = ⟨entry.FilePath, false, Msg.errGettingHash⟩) ∧
    (∀ (entry : FileEntry) (h : List Char),
        fs (resolveFullPath hashFilePath entry.FilePath) = some h →
        h.map Char.toUpper = entry.Hash →
        checkOne fs hashFilePath entry = ⟨entry.FilePath, true, Msg.noMsg⟩) ∧
    (∀ (entry : FileEntry) (h : List Char),
        fs (resolveFullPath hashFilePath entry.FilePath) = some h →
        ¬ h.map Char.toUpper = entry.Hash →
        checkOne fs hashFilePath entry = ⟨entry.FilePath, false, Msg.failed⟩) ∧
    (countValid (entries.map (checkOne fs hashFilePath)) +
        countInvalid (entries.map (checkOne fs hashFilePath)) = entries.length) ∧
    (∃ pre, checkTrace fs hashFilePath entries =
        pre ++ [CheckEvent.printSummary entries.length
                  (countValid (entries.map (checkOne fs hashFilePath)))
                  (countInvalid (entries.map (checkOne fs hashFilePath))),
                CheckEvent.exitProcess
                  (if hasFailure (entries.map (checkOne fs hashFilePath)) then 1 else 0)]) ∧
    ((if hasFailure (entries.map (checkOne fs hashFilePath)) then 1 else 0) = 0 ↔
      ∀ e ∈ entries, ∃ h, fs (resolveFullPath hashFilePath e.FilePath) = some h ∧
        h.map Char.toUpper = e.Hash) := by
  refine ⟨?_, ?_, ?_, ?_, ?_, ?_⟩
  · intro entry hfs
    rw [checkOne, hfs]
  · intro entry h hfs hh
    rw [checkOne, hfs]
    simp [hh]
  · intro entry h hfs hh
    rw [checkOne, hfs]
    simp [hh]
  · have := countValid_add_countInvalid (entries.map (checkOne fs hashFilePath))
    simpa using this
  · refine ⟨(entries.map (checkOne fs hashFilePath)).filterMap (fun r =>
        if r.Message = Msg.noMsg then none
        else some (CheckEvent.printMsg r.Message r.FilePath)) ++
      (if 0 < countInvalid (entries.map (checkOne fs hashFilePath))
        then [CheckEvent.printWarning (countInvalid (entries.map (checkOne fs hashFilePath)))]
        else []), ?_⟩
    rw [checkTrace]
    simp [List.append_assoc]
  · constructor
    · intro hzero e he
      have hfail : hasFailure (entries.map (checkOne fs hashFilePath)) = false := by
        by_contra hcon
        rw [Bool.not_eq_false] at hcon
        rw [if_pos hcon] at hzero
        cases hzero
      rw [hasFailure, List.any_eq_false] at hfail
      have := hfail _ (List.mem_map_of_mem (checkOne fs hashFilePath) he)
      rw [← checkOne_isValid_iff fs hashFilePath e]
      simp only [Bool.not_eq_true, Bool.not_eq_false] at this
      simpa using this
    · intro hall
      have hfail : hasFailure (entries.map (checkOne fs hashFilePath)) = false := by
        rw [hasFailure, List.any_eq_false]
        intro r hr
        rw [List.mem_map] at hr
        obtain ⟨e, he, rfl⟩ := hr
        have := (checkOne_isValid_iff fs hashFilePath e).mpr (hall e he)
        simp [this]
      rw [hfail]
      rfl

/-- C1 witness: one matching entry under a concrete filesystem. -/
theorem claim_C1_check_reconciliation_witness :
    ((fun p => if p = ['f'] then some ['a'] else none) (resolveFullPath stdinName ['f'])
        = some ['a'] ∧
      (['a'].map Char.toUpper = (⟨['A'], ['f']⟩ : FileEntry).Hash)) ∧
    checkOne (fun p => if p = ['f'] then some ['a'] else none) stdinName ⟨['A'], ['f']⟩ =
      ⟨['f'], true, Msg.noMsg⟩ :=
  ⟨⟨by decide, by decide⟩,
    (claim_C1_check_reconciliation (fun p => if p = ['f'] then some ['a'] else none)
        stdinName [⟨['A'], ['f']⟩]).2.1 ⟨['A'], ['f']⟩ ['a'] (by decide) (by decide)⟩

/-- C6 counterexample: an unreadable file and a mismatched file change
the report's counters identically — the aggregation has a single
`invalid` counter and no separate `errored` counter, so the claimed
report `succeeded=1, mismatched=1, errored=0` does not exist in the
code's report. -/
theorem claim_C6_counterexample :
    (checkOne (fun _ => none) stdinName ⟨['A'], ['f']⟩).Message = Msg.errGettingHash ∧
    (checkOne (fun _ => some ['B']) stdinName ⟨['A'], ['f']⟩).Message = Msg.failed ∧
    countValid [checkOne (fun _ => none) stdinName ⟨['A'], ['f']⟩] =
      countValid [checkOne (fun _ => some ['B']) stdinName ⟨['A'], ['f']⟩] ∧
    countInvalid [checkOne (fun _ => none) stdinName ⟨['A'], ['f']⟩] =
      countInvalid [checkOne (fun _ => some ['B']) stdinName ⟨['A'], ['f']⟩] ∧
    countInvalid [checkOne (fun _ => none) stdinName ⟨['A'], ['f']⟩] = 1 := by
  decide

/-- C6 (amended): the report keeps two counters, valid and invalid;
mismatches and per-file errors both increment invalid.  For a two-entry
manifest with one correct and one altered digest the code reports two
files processed, one valid, one invalid, and exits with code 1. -/
theorem claim_C6_two_counters (fs : List Char → Option (List Char))
    (hashFilePath : List Char) (e₁ e₂ : FileEntry) (h₁ h₂ : List Char)
    (hfs₁ : fs (resolveFullPath hashFilePath e₁.FilePath) = some h₁)
    (hmatch : h₁.map Char.toUpper = e₁.Hash)
    (hfs₂ : fs (resolveFullPath hashFilePath e₂.FilePath) = some h₂)
    (hmis : ¬ h₂.map Char.toUpper = e₂.Hash) :
    countValid ([e₁, e₂].map (checkOne fs hashFilePath)) = 1 ∧
    countInvalid ([e₁, e₂].map (checkOne fs hashFilePath)) = 1 ∧
    checkTrace fs hashFilePath [e₁, e₂] =
      [CheckEvent.printMsg Msg.failed e₂.FilePath,
        CheckEvent.printWarning 1,
        CheckEvent.printSummary 2 1 1,
        CheckEvent.exitProcess 1] := by
  have hc₁ : checkOne fs hashFilePath e₁ = ⟨e₁.FilePath, true, Msg.noMsg⟩ := by
    rw [checkOne, hfs₁]; simp [hmatch]
  have hc₂ : checkOne fs hashFilePath e₂ = ⟨e₂.FilePath, false, Msg.failed⟩ := by
    rw [checkOne, hfs₂]; simp [hmis]
  refine ⟨?_, ?_, ?_⟩
  · simp [countValid, List.countP_cons, hc₁, hc₂]
  · simp [countInvalid, List.countP_cons, hc₁, hc₂]
  · rw [checkTrace]
    simp only [List.map_cons, List.map_nil, hc₁, hc₂]
    simp [countValid, countInvalid, hasFailure, List.countP_cons]

/-- C6 witness: the two-entry scenario under a concrete filesystem. -/
theorem claim_C6_two_counters_witness :
    ((fun p => if p = ['f'] then some ['a'] else some ['x'])
        (resolveFullPath stdinName ['f']) = some ['a'] ∧
      ['a'].map Char.toUpper = (⟨['A'], ['f']⟩ : FileEntry).Hash ∧
      (fun p => if p = ['f'] then some ['a'] else some ['x'])
        (resolveFullPath stdinName ['g']) = some ['x'] ∧
      ¬ ['x'].map Char.toUpper = (⟨['A'], ['g']⟩ : FileEntry).Hash) ∧
    (countValid ([(⟨['A'], ['f']⟩ : FileEntry), ⟨['A'], ['g']⟩].map
        (checkOne (fun p => if p = ['f'] then some ['a'] else some ['x']) stdinName)) = 1 ∧
      countInvalid ([(⟨['A'], ['f']⟩ : FileEntry), ⟨['A'], ['g']⟩].map
        (checkOne (fun p => if p = ['f'] then some ['a'] else some ['x']) stdinName)) = 1 ∧
      checkTrace (fun p => if p = ['f'] then some ['a'] else some ['x']) stdinName
          [⟨['A'], ['f']⟩, ⟨['A'], ['g']⟩] =
        [CheckEvent.printMsg Msg.failed ['g'],
          CheckEvent.printWarning 1,
          CheckEvent.printSummary 2 1 1,
          CheckEvent.exitProcess 1]) :=
  ⟨⟨by decide, by decide, by decide, by decide⟩,
    claim_C6_two_counters (fun p => if p = ['f'] then some ['a'] else some ['x'])
      stdinName ⟨['A'], ['f']⟩ ⟨['A'], ['g']⟩ ['a'] ['x']
      (by decide) (by decide) (by decide) (by decide)⟩

/-- C7: the effective worker count is always in `[1, 50]` and is never
rejected: in-range values pass through, values below 1 fall back to the
default 15, values above 50 are capped at 50. -/
theorem claim_C7_worker_clamp (w : Int) :
    (1 ≤ effectiveMaxWorkers w ∧ effectiveMaxWorkers w ≤ 50) ∧
    (1 ≤ w ∧ w ≤ 50 → effectiveMaxWorkers w = w) ∧
    (w < 1 → effectiveMaxWorkers w = 15) ∧
    (w > 50 → effectiveMaxWorkers w = 50) := by
  simp only [effectiveMaxWorkers, defaultMaxWorkers]
  by_cases h1 : w < 1 <;> by_cases h2 : w > 50 <;>
    simp [h1, h2] <;> omega

/-- C7 witness: a configured value of 0 yields 15. -/
theorem claim_C7_worker_clamp_witness :
    ((0 : Int) < 1) ∧ effectiveMaxWorkers 0 = 15 :=
  ⟨by decide, (claim_C7_worker_clamp 0).2.2.1 (by decide)⟩

/-- C8 (code evaluation): an argument list consisting of `-` selects a
file literally named `-`, not the standard-input stream; standard input
is selected only by an empty argument list.  This contradicts the
program's own usage text, which documents `-c -` as reading from
standard input. -/
theorem claim_C8_dash_opens_file :
    selectManifestSource [['-']] = ManifestSource.file ['-'] ∧
    ManifestSource.file ['-'] ≠ ManifestSource.stdinStream ∧
    selectManifestSource [] = ManifestSource.stdinStream := by
  decide

/-- C10: calculate mode writes a `DIGEST␣␣path` line exactly for the
files whose hashing succeeded, counts the failures, and exits 0 when
every file hashed and 1 when at least one failed. -/
theorem claim_C10_calc_output_and_exit (fs : List Char → Option (List Char))
    (files : List (List Char)) :
    ((runCalc fs files).1 =
        files.filterMap fun f => (fs f).map fun h => serializeLine h f) ∧
    ((runCalc fs files).2.1 = files.countP fun f => (fs f).isNone) ∧
    ((runCalc fs files).2.2 = 0 ↔ ∀ f ∈ files, (fs f).isSome = true) ∧
    ((runCalc fs files).2.2 = 1 ↔ ∃ f ∈ files, fs f = none) := by
  have hcnt : (files.map (calcOne fs)).countP (fun r => r.Error) =
      files.countP fun f => (fs f).isNone := by
    rw [List.countP_map]
    apply List.countP_congr
    intro f _
    cases hf : fs f <;> simp [Function.comp, hf, calcOne]
  refine ⟨?_, ?_, ?_, ?_⟩
  · rw [runCalc]
    simp only [List.filterMap_map]
    apply List.filterMap_congr
    intro f _
    cases hf : fs f <;> simp [Function.comp, hf, calcOne]
  · rw [runCalc]
    exact hcnt
  · rw [runCalc]
    simp only [hcnt]
    constructor
    · intro h f hf
      have hz : (files.countP fun f => (fs f).isNone) = 0 := by
        by_contra hcon
        rw [if_pos (Nat.pos_of_ne_zero hcon)] at h
        cases h
      rw [List.countP_eq_zero] at hz
      have := hz f hf
      cases hfs : fs f
      · rw [hfs] at this; simp at this
      · simp
    · intro h
      have hz : (files.countP fun f => (fs f).isNone) = 0 := by
        rw [List.countP_eq_zero]
        intro f hf
        have := h f hf
        cases hfs : fs f
        · rw [hfs] at this; simp at this
        · simp
      rw [hz]
      rfl
  · rw [runCalc]
    simp only [hcnt]
    constructor
    · intro h
      have hpos : 0 < files.countP fun f => (fs f).isNone := by
        by_contra hcon
        rw [if_neg hcon] at h
        cases h
      rw [List.countP_pos_iff] at hpos
      obtain ⟨f, hf, hn⟩ := hpos
      refine ⟨f, hf, ?_⟩
      cases hfs : fs f
      · rfl
      · rw [hfs] at hn; simp at hn
    · intro ⟨f, hf, hn⟩
      have hpos : 0 < files.countP fun f => (fs f).isNone :=
        List.countP_pos_iff.mpr ⟨f, hf, by rw [hn]; rfl⟩
      rw [if_pos hpos]

/-! ### Scheduler proofs -/

/-- Updating one task's phase exchanges its contribution to any
phase-weight sum. -/
theorem sum_update_phase {N : Nat} (f : Fin N → TaskPhase) (i : Fin N)
    (v : TaskPhase) (g : TaskPhase → Nat) :
    (∑ j : Fin N, g (Function.update f i v j)) + g (f i) =
      (∑ j : Fin N, g (f j)) + g v := by
  have hfun : (fun j => g (Function.update f i v j)) =
      Function.update (fun j => g (f j)) i (g v) := by
    funext j
    by_cases hj : j = i
    · subst hj; simp
    · simp [Function.update_noteq hj]
  rw [hfun, Finset.sum_update_of_mem (Finset.mem_univ i)]
  have horig : (∑ j : Fin N, g (f j)) =
      g (f i) + ∑ j in Finset.univ.erase i, g (f j) :=
    (Finset.add_sum_erase _ _ (Finset.mem_univ i)).symm
  rw [horig, Finset.erase_eq]
  omega

/-- The phase of every task of a reachable state, the outcome channel
and the closed flag satisfy the scheduler's invariants: at most `W`
semaphore slots are held; the channel holds exactly one outcome per task
that has sent one; a closed channel means every task has finished. -/
theorem sched_invariant {W N : Nat} {s : SchedState N} (h : SchedReach W N s) :
    cntP holdsSlot s ≤ W ∧
      (∀ i, s.outcomes.count i =
        if s.phase i = TaskPhase.sent ∨ s.phase i = TaskPhase.released then 1 else 0) ∧
      (s.closed = true → ∀ i, s.phase i = TaskPhase.released) := by
  induction h with
  | init =>
    refine ⟨?_, ?_, ?_⟩
    · simp [cntP, initState, holdsSlot]
    · intro i; simp [initState]
    · intro hc; simp [initState] at hc
  | @step s t hr hs ih =>
    obtain ⟨ihCnt, ihOut, ihClosed⟩ := ih
    cases hs with
    | acquire i hpend hcnt =>
      refine ⟨?_, ?_, ?_⟩
      · have hupd := sum_update_phase s.phase i TaskPhase.hashing
          (fun t => if holdsSlot t then 1 else 0)
        have h0 : holdsSlot (s.phase i) = false := by rw [hpend]; rfl
        have h1 : holdsSlot TaskPhase.hashing = true := rfl
        rw [h0, h1] at hupd
        simp only [cntP] at hcnt ⊢
        simp only [Bool.false_eq_true, if_false, if_true] at hupd
        omega
      · intro j
        by_cases hj : j = i
        · subst hj
          have := ihOut j
          rw [hpend] at this
          simp only [Function.update_same]
          simpa using this
        · have := ihOut j
          simpa [Function.update_noteq hj] using this
      · intro hc
        exfalso
        have := ihClosed hc i
        rw [hpend] at this
        cases this
    | emit i hhash =>
      refine ⟨?_, ?_, ?_⟩
      · have hupd := sum_update_phase s.phase i TaskPhase.sent
          (fun t => if holdsSlot t then 1 else 0)
        have h0 : holdsSlot (s.phase i) = true := by rw [hhash]; rfl
        have h1 : holdsSlot TaskPhase.sent = true := rfl
        rw [h0, h1] at hupd
        simp only [cntP] at ihCnt ⊢
        simp only [if_true] at hupd
        omega
      · intro j
        by_cases hj : j = i
        · subst hj
          have := ihOut j
          rw [hhash] at this
          simp only [List.count_cons, Function.update_same]
          simp only [show (TaskPhase.hashing = TaskPhase.sent ∨
              TaskPhase.hashing = TaskPhase.released) ↔ False by simp, if_false] at this
          simp [this]
        · have := ihOut j
          simp only [List.count_cons, Function.update_noteq hj]
          have hne : ¬ j = i := hj
          have hne' : ¬ i = j := fun hh => hj hh.symm
          simp [hne, hne', this]
      · intro hc
        exfalso
        have := ihClosed hc i
        rw [hhash] at this
        cases this
    | release i hsent =>
      refine ⟨?_, ?_, ?_⟩
      · have hupd := sum_update_phase s.phase i TaskPhase.released
          (fun t => if holdsSlot t then 1 else 0)
        have h0 : holdsSlot (s.phase i) = true := by rw [hsent]; rfl
        have h1 : holdsSlot TaskPhase.released = false := rfl
        rw [h0, h1] at hupd
        simp only [cntP] at ihCnt ⊢
        simp only [Bool.false_eq_true, if_false, if_true] at hupd
        omega
      · intro j
        by_cases hj : j = i
        · subst hj
          have := ihOut j
          rw [hsent] at this
          simp only [Function.update_same]
          simpa using this
        · have := ihOut j
          simpa [Function.update_noteq hj] using this
      · intro hc
        exfalso
        have := ihClosed hc i
        rw [hsent] at this
        cases this
    | closeChan hall hopen =>
      exact ⟨ihCnt, ihOut, fun _ => hall⟩

/-- The length of a list of task indices is the sum of its per-index
counts. -/
theorem length_eq_sum_count {N : Nat} (l : List (Fin N)) :
    l.length = ∑ i : Fin N, l.count i := by
  induction l with
  | nil => simp
  | cons a l ih =>
    have hsum : (∑ i : Fin N, (a :: l).count i) =
        ∑ i : Fin N, (l.count i + if a = i then 1 else 0) := by
      apply Finset.sum_congr rfl
      intro i _
      rw [List.count_cons]
      by_cases hia : a = i <;> simp [hia]
    rw [List.length_cons, hsum, Finset.sum_add_distrib, ← ih,
      Finset.sum_ite_eq Finset.univ a fun _ => 1]
    simp

/-- Weight of a phase, decreasing along every task's lifecycle. -/
def phaseWeight : TaskPhase → Nat
  | TaskPhase.pending => 3
  | TaskPhase.hashing => 2
  | TaskPhase.sent => 1
  | TaskPhase.released => 0

/-- Termination measure of the worker system. -/
def schedMeasure {N : Nat} (s : SchedState N) : Nat :=
  (∑ i : Fin N, phaseWeight (s.phase i)) + (if s.closed then 0 else 1)

/-- With at least one worker, every open reachable state can step, and
every step decreases the measure. -/
theorem sched_progress {W N : Nat} (hW : 1 ≤ W) {s : SchedState N}
    (hnc : s.closed = false) :
    ∃ t, SchedStep W s t ∧ schedMeasure t < schedMeasure s := by
  by_cases hsent : ∃ i, s.phase i = TaskPhase.sent
  · obtain ⟨i, hi⟩ := hsent
    refine ⟨_, SchedStep.release s i hi, ?_⟩
    have hupd := sum_update_phase s.phase i TaskPhase.released phaseWeight
    rw [hi, show phaseWeight TaskPhase.sent = 1 from rfl,
      show phaseWeight TaskPhase.released = 0 from rfl] at hupd
    simp only [schedMeasure]
    omega
  · by_cases hhash : ∃ i, s.phase i = TaskPhase.hashing
    · obtain ⟨i, hi⟩ := hhash
      refine ⟨_, SchedStep.emit s i hi, ?_⟩
      have hupd := sum_update_phase s.phase i TaskPhase.sent phaseWeight
      rw [hi, show phaseWeight TaskPhase.hashing = 2 from rfl,
        show phaseWeight TaskPhase.sent = 1 from rfl] at hupd
      simp only [schedMeasure]
      omega
    · by_cases hpend : ∃ i, s.phase i = TaskPhase.pending
      · obtain ⟨i, hi⟩ := hpend
        have hcnt : cntP holdsSlot s = 0 := by
          rw [cntP]
          apply Finset.sum_eq_zero
          intro j _
          cases hj : s.phase j with
          | pending => rfl
          | hashing => exact absurd ⟨j, hj⟩ hhash
          | sent => exact absurd ⟨j, hj⟩ hsent
          | released => rfl
        refine ⟨_, SchedStep.acquire s i hi (by omega), ?_⟩
        have hupd := sum_update_phase s.phase i TaskPhase.hashing phaseWeight
        rw [hi, show phaseWeight TaskPhase.pending = 3 from rfl,
          show phaseWeight TaskPhase.hashing = 2 from rfl] at hupd
        simp only [schedMeasure]
        omega
      · have hall : ∀ i, s.phase i = TaskPhase.released := by
          intro i
          cases hj : s.phase i with
          | pending => exact absurd ⟨i, hj⟩ hpend
          | hashing => exact absurd ⟨i, hj⟩ hhash
          | sent => exact absurd ⟨i, hj⟩ hsent
          | released => rfl
        refine ⟨_, SchedStep.closeChan s hall hnc, ?_⟩
        simp [schedMeasure, hnc]

/-- With at least one worker the system always reaches a closed state.
-/
theorem sched_reaches_closed {W N : Nat} (hW : 1 ≤ W) :
    ∃ s : SchedState N, SchedReach W N s ∧ s.closed = true := by
  suffices hstrong : ∀ (m : Nat) (s : SchedState N), schedMeasure s ≤ m →
      SchedReach W N s → ∃ t : SchedState N, SchedReach W N t ∧ t.closed = true by
    exact hstrong (schedMeasure (initState N)) _ le_rfl (SchedReach.init)
  intro m
  induction m with
  | zero =>
    intro s hm hr
    refine ⟨s, hr, ?_⟩
    rcases hc : s.closed with _ | _
    · rw [schedMeasure, hc] at hm; simp at hm
    · rfl
  | succ m ih =>
    intro s hm hr
    rcases hc : s.closed with _ | _
    · obtain ⟨t, hst, hlt⟩ := sched_progress hW hc
      exact ih t (by omega) (SchedReach.step hr hst)
    · exact ⟨s, hr, hc⟩

/-- C9: in every reachable state of the worker system at most `W` tasks
are inside their file-I/O-bound digest work; when the result channel is
closed (completion is signaled), exactly `N` outcomes have been
produced, one per task; and with at least one worker a closed state is
reached. -/
theorem claim_C9_bounded_concurrency (W N : Nat) :
    (∀ s : SchedState N, SchedReach W N s →
        cntP isHashing s ≤ W ∧
        (s.closed = true →
          s.outcomes.length = N ∧ ∀ i, s.outcomes.count i = 1)) ∧
    (1 ≤ W → ∃ s : SchedState N, SchedReach W N s ∧ s.closed = true ∧
        s.outcomes.length = N) := by
  have hmain : ∀ s : SchedState N, SchedReach W N s →
      cntP isHashing s ≤ W ∧
      (s.closed = true → s.outcomes.length = N ∧ ∀ i, s.outcomes.count i = 1) := by
    intro s hr
    obtain ⟨hcnt, hout, hclosed⟩ := sched_invariant hr
    constructor
    · refine le_trans ?_ hcnt
      rw [cntP, cntP]
      apply Finset.sum_le_sum
      intro i _
      cases hp : s.phase i <;> simp [isHashing, holdsSlot]
    · intro hc
      have hone : ∀ i, s.outcomes.count i = 1 := by
        intro i
        have := hout i
        rw [hclosed hc i] at this
        simpa using this
      refine ⟨?_, hone⟩
      rw [length_eq_sum_count]
      simp [hone, Finset.card_univ]
  refine ⟨hmain, fun hW => ?_⟩
  obtain ⟨s, hr, hc⟩ := sched_reaches_closed (N := N) hW
  exact ⟨s, hr, hc, ((hmain s hr).2 hc).1⟩

/-- C9 witness: the bound at the initial state with two tasks and one
worker, and the existence of a completed run. -/
theorem claim_C9_bounded_concurrency_witness :
    (cntP isHashing (initState 2) ≤ 1 ∧
      ((initState 2).closed = true →
        (initState 2).outcomes.length = 2 ∧ ∀ i, (initState 2).outcomes.count i = 1)) ∧
    ((1 : Nat) ≤ 1 ∧
      ∃ s : SchedState 2, SchedReach 1 2 s ∧ s.closed = true ∧ s.outcomes.length = 2) :=
  ⟨(claim_C9_bounded_concurrency 1 2).1 (initState 2) SchedReach.init,
    ⟨le_rfl, (claim_C9_bounded_concurrency 1 2).2 le_rfl⟩⟩

end GoDirHasher
